import Mathlib

/-!
Verification development for the go-preloader-http middleware.

The Go source (`main.go`, package HttpPreloader) is shallowly embedded here.
Go strings (byte sequences) are modelled as `List Char`; Go maps as functions
into `Option`.

The dispatch loop (main.go lines 197-230) spawns one goroutine per path
segment while sharing the mutable variable `currentPathReq` with all of
them: each goroutine reads it at route-lookup time (line 208) and again,
under the mutex, at bundle-insert time (line 226); the goroutine of the
final iteration also writes it (line 222); meanwhile the main goroutine
keeps advancing it for later iterations (lines 200-204).  These conflicting
unsynchronised accesses are a data race, so the prefix a goroutine matches
and the key it inserts under depend on the interleaving.  The model
therefore has two layers.

`Sched`/`ValidSched` together with `racyCalls`, `racyInsert` and
`racyBundle` model the loop for an arbitrary interleaving: the shared
variable only ever holds the successive prefixes, followed — once the final
iteration's goroutine has matched and written — by the original
request-target, so a schedule picks, for every iteration, the timeline
positions its two reads observe (at or after the position current at its
spawn) and a mutex-serialisation order for the inserts.  Universal claims
are proved over every schedule; refutations exhibit one valid schedule.

`dispatchGo`/`runDispatch` compute the single interleaving in which each
goroutine body runs to completion at its spawn point.  That is one legal
schedule of the race, not a semantics of the program, and no
schedule-dependent property is claimed through it.

Handler invocations are recorded in a ghost log (iteration index, observed
prefix, request passed); the log does not influence any computed response.
-/

/-- Go strings are byte sequences; we model them as character lists. -/
abbrev Str := List Char

/-- Embed a Lean string literal as a `Str`. -/
def str (s : String) : Str := s.data

/-- Model of Go `strings.ToLower` (character-wise lowering). -/
def lowerStr (l : Str) : Str := l.map Char.toLower

/-- Model of Go `strings.Split(l, "/")`: split on every `'/'`; the result is
always nonempty and splitting the empty string yields `[[]]`. -/
def splitSlash : Str → List Str
  | [] => [[]]
  | ch :: rest =>
    match splitSlash rest with
    | [] => [[]]
    | h :: t => if ch = '/' then [] :: h :: t else (ch :: h) :: t

/-- Join segments with `'/'` (inverse of `splitSlash`). -/
def joinSlash : List Str → Str
  | [] => []
  | [s] => s
  | s :: s2 :: rest => s ++ '/' :: joinSlash (s2 :: rest)

/-- Model of `strings.SplitN(uri, "?", 2)[0]`: the request path with the
query string removed (everything before the first `'?'`). -/
def basePathOf (uri : Str) : Str := uri.takeWhile (fun ch => decide (ch ≠ '?'))

/-- One step of the prefix-building loop (main.go lines 200-204): append the
next segment, inserting a `'/'` unless the accumulator already ends in one. -/
def prefixStep (c s : Str) : Str :=
  if 0 < c.length ∧ c.getLast? = some '/' then c ++ s else c ++ str "/" ++ s

/-- The successive values of `currentPathReq` produced by folding
`prefixStep` over a segment list starting from accumulator `c`. -/
def prefixesFrom (c : Str) : List Str → List Str
  | [] => []
  | s :: rest => prefixStep c s :: prefixesFrom (prefixStep c s) rest

/-- All ancestor prefixes generated for a (query-stripped) request path,
exactly as the loop in main.go lines 197-204 computes them. -/
def prefixList (basePath : Str) : List Str := prefixesFrom [] (splitSlash basePath)

/-- Every segment of a list is nonempty. -/
def allNonempty : List Str → Bool
  | [] => true
  | s :: rest => (!s.isEmpty) && allNonempty rest

/-- A well-formed segment decomposition: leading empty segment (the path
starts with `'/'`) followed by at least one nonempty segment.  This excludes
the root path `"/"` and paths containing empty segments (`"//"`, trailing
`'/'`). -/
def niceSegs : List Str → Bool
  | [] => false
  | s0 :: t => s0.isEmpty && !t.isEmpty && allNonempty t

/-- Go `http.Header` (`map[string][]string`) modelled as an association list
from header name to the ordered list of values, in insertion order. -/
abbrev Header := List (Str × List Str)

/-- Model of `http.Header.Add`: append the value to the (first) entry for the
key, or add a fresh entry at the end. -/
def headerAdd (hs : Header) (k v : Str) : Header :=
  match hs with
  | [] => [(k, [v])]
  | p :: rest => if p.1 = k then (p.1, p.2 ++ [v]) :: rest else p :: headerAdd rest k v

/-- The concatenated sequence of values recorded for header name `k`. -/
def headerValues (hs : Header) (k : Str) : List Str :=
  hs.foldr (fun q acc => if q.1 = k then q.2 ++ acc else acc) []

/-- The header-promotion loop of main.go lines 250-254: every value of every
captured header is re-added, in order, onto an initially empty header. -/
def promote (hs : Header) : Header :=
  hs.foldl (fun acc q => q.2.foldl (fun a v => headerAdd a q.1 v) acc) []

/-- Model of `InterceptWriter` (main.go lines 26-53): captured headers, status
code (default 200) and body.  The `buf`/`Body` pair of the source always hold
the same bytes, so a single `Body` field models both. -/
structure InterceptWriter where
  Headers : Header
  StatusCode : Nat
  Body : Str
deriving DecidableEq

/-- Model of `NewInterceptWriter`. -/
def NewInterceptWriter : InterceptWriter :=
  { Headers := [], StatusCode := 200, Body := [] }

/-- Model of `InterceptWriter.Write`: body bytes append. -/
def InterceptWriter.write (iw : InterceptWriter) (b : Str) : InterceptWriter :=
  { iw with Body := iw.Body ++ b }

/-- Model of `InterceptWriter.WriteHeader`: last call wins. -/
def InterceptWriter.writeHeader (iw : InterceptWriter) (code : Nat) : InterceptWriter :=
  { iw with StatusCode := code }

/-- Model of `InterceptWriter.Header().Add`. -/
def InterceptWriter.headerAddTo (iw : InterceptWriter) (k v : Str) : InterceptWriter :=
  { iw with Headers := headerAdd iw.Headers k v }

/-- Model of `url.URL` restricted to the fields the middleware touches. -/
structure GoURL where
  Path : Str
  RawQuery : Str
deriving DecidableEq

/-- Model of `http.Request` restricted to the fields the middleware touches. -/
structure Request where
  Method : Str
  RequestURI : Str
  URL : GoURL
deriving DecidableEq

/-- The shallow copy made for ancestor dispatch (main.go lines 214-217):
clone the request and blank the query string, leaving other fields intact. -/
def clearQuery (r : Request) : Request :=
  { r with URL := { r.URL with RawQuery := [] } }

/-- A registered handler: it receives a responder and the request and yields
the responder's final state (Go handlers mutate the writer in place). -/
abbrev Handler := InterceptWriter → Request → InterceptWriter

/-- The route registry `routes map[string]map[string]PreloadRouteMap` as a
function from method and exact path to an optional handler. -/
abbrev Routes := Str → Str → Option Handler

/-- The empty registry. -/
def emptyRoutes : Routes := fun _ _ => none

/-- Model of `addRoute` (main.go lines 81-86): insert or overwrite. -/
def addRoute (routes : Routes) (method pattern : Str) (h : Handler) : Routes :=
  fun m p => if m = method ∧ p = pattern then some h else routes m p

/-- `http.MethodGet`. -/
def methodGet : Str := str "GET"

/-- Model of `requestIsDefaultIndex` (main.go lines 96-108). -/
def requestIsDefaultIndex (path : Str) : Bool :=
  let lowerURI := lowerStr path
  let segments := splitSlash lowerURI
  let lastSegment := segments.getLastD []
  if lastSegment = [] ∨ lastSegment = str "index.html" ∨ lastSegment = str "index.htm" then
    true
  else if !(lastSegment.contains '.') then
    true
  else
    false

/-- The preload bundle `preloadRequests map[string]*InterceptWriter` as a
function from key to optional captured writer. -/
abbrev Bundle := Str → Option InterceptWriter

/-- Go map assignment `m[k] = v`. -/
def mapUpdate (m : Bundle) (k : Str) (v : InterceptWriter) : Bundle :=
  fun q => if q = k then some v else m q

/-- State carried by the dispatch loop: the bundle under construction and a
ghost log of handler invocations `(iteration index, matched prefix, request)`.
The log is instrumentation only; no computed response reads it. -/
structure DispState where
  bundle : Bundle
  calls : List (Nat × Str × Request)

/-- The dispatch loop of main.go lines 199-230 under one particular legal
interleaving of its data race: each spawned goroutine body runs to
completion at its spawn point, so both of its reads of the shared
`currentPathReq` observe the value just written by the main loop.  `n` is
the total number of segments, `i` the current index, `cur` the running
`currentPathReq`.  Under this schedule, when a route matches, the terminal
index receives the original request and records under `r.RequestURI`, and
earlier indices receive the query-cleared copy and record under the prefix
itself.  See `racyBundle` for the schedule-quantified model; nothing
schedule-dependent is claimed through this instance. -/
def dispatchGo (routes : Routes) (r : Request) (n : Nat) :
    List Str → Nat → Str → DispState → DispState
  | [], _, _, st => st
  | s :: rest, i, cur, st =>
    let c := prefixStep cur s
    match routes r.Method c with
    | none => dispatchGo routes r n rest (i + 1) c st
    | some h =>
      let req := if i = n - 1 then r else clearQuery r
      let pw := h NewInterceptWriter req
      let key := if i = n - 1 then r.RequestURI else c
      dispatchGo routes r n rest (i + 1) key
        { bundle := mapUpdate st.bundle key pw
          calls := st.calls ++ [(i, c, req)] }

/-- Path decomposition and dispatch for a document-route request (main.go
lines 190-232) under the inline-at-spawn schedule of `dispatchGo`. -/
def runDispatch (routes : Routes) (r : Request) : DispState :=
  let basePath := basePathOf r.RequestURI
  let pathSegments := splitSlash basePath
  dispatchGo routes r pathSegments.length pathSegments 0 [] ⟨fun _ => none, []⟩

/-- The real outgoing response as far as the middleware shapes it: headers
added by promotion, the status (the middleware never calls `WriteHeader` on
the real writer, so the response layer default 200 stands) and the body. -/
structure RealResponse where
  headers : Header
  statusCode : Nat
  body : Str
deriving DecidableEq

/-- Bundling and injection (main.go lines 234-258) applied to a given
Preload Bundle: serialize it via `enc` (standing for `json.Marshal`),
splice the marker into the shell parts, and promote the headers of the
entry keyed by the original request-target when present with status other
than 404.  This stage runs on the main goroutine after the join, so it is
race-free; the bundle it receives is whichever one the dispatch race
produced. -/
def bundleResponse (b : Bundle) (parts : Str × Str) (enc : Bundle → Str)
    (uri : Str) : RealResponse :=
  let varString := str "<script>window.httpPreload=" ++ enc b ++ str "</script>"
  let requestedReactIndexText := parts.1 ++ varString ++ parts.2
  let hdrs :=
    match b uri with
    | some iw => if iw.StatusCode ≠ 404 then promote iw.Headers else []
    | none => []
  { headers := hdrs, statusCode := 200, body := requestedReactIndexText }

/-- The document-route response under the inline-at-spawn schedule. -/
def docResponse (routes : Routes) (parts : Str × Str) (enc : Bundle → Str)
    (r : Request) : RealResponse :=
  bundleResponse ((runDispatch routes r).bundle) parts enc r.RequestURI

/-- Model of `strings.TrimPrefix`. -/
def trimPre (s pre : Str) : Str :=
  if pre.isPrefixOf s then s.drop pre.length else s

/-- The API lookup path (main.go lines 265-268): strip the API namespace
from the request path, defaulting to the root path when nothing remains. -/
def apiLookupPath (apiBase path : Str) : Str :=
  let directApiPath := trimPre path apiBase
  if directApiPath = [] then str "/" else directApiPath

/-- What the middleware does with one inbound request: either it writes a
response itself, or it delegates to the static-file/proxy fallback
(main.go lines 171-186), which is outside the preload pipeline. -/
inductive ServeOutcome where
  | resp (response : RealResponse)
  | staticServe
deriving DecidableEq

/-- The request handler returned by `HttpPreloader` (main.go lines 166-277):
classify by API namespace, gate document routes on `requestIsDefaultIndex`
and the staggered testing mode, and dispatch API routes by direct lookup.
The document branch is shown under the inline-at-spawn schedule; `serveR`
below is the same handler with the dispatch schedule quantified. -/
def serve (routes : Routes) (apiBase : Str) (parts : Str × Str)
    (staggaredTestingMode : Bool) (enc : Bundle → Str) (r : Request) : ServeOutcome :=
  if !(apiBase.isPrefixOf r.URL.Path) then
    if !(requestIsDefaultIndex r.URL.Path) then
      ServeOutcome.staticServe
    else if !staggaredTestingMode then
      ServeOutcome.resp (docResponse routes parts enc r)
    else
      ServeOutcome.resp { headers := [], statusCode := 200, body := parts.1 ++ parts.2 }
  else
    match routes r.Method (apiLookupPath apiBase r.URL.Path) with
    | some h =>
      ServeOutcome.resp
        { headers := [], statusCode := 200, body := (h NewInterceptWriter r).Body }
    | none =>
      ServeOutcome.resp { headers := [], statusCode := 200, body := [] }

/-! ### The dispatch loop under an arbitrary interleaving

The shared `currentPathReq` takes, over time, exactly the values
`p_0, …, p_(n-1)` written by the main loop (the generated prefixes, in
order) and then — only if the final iteration's goroutine matched a route —
`r.RequestURI`, written at line 222.  The final iteration's goroutine is
spawned after the last main-loop write and before any further write, so its
lookup read is deterministic (`p_(n-1)`) and, when it matches, its insert
read deterministically observes its own `r.RequestURI` write.  Every other
goroutine is spawned after `p_i` is written, so each of its two reads
observes some position at or after `i`, the insert read no earlier than the
lookup read.  Since the insert read happens inside the mutex together with
the insertion (lines 225-227), the serialisation order of the inserts must
carry non-decreasing read positions.  The loop variables `i` and `segment`
are per-iteration (current Go semantics), so only `currentPathReq` is
shared. -/

/-- The number of path segments (loop iterations) of a request. -/
def racyN (r : Request) : Nat := (splitSlash (basePathOf r.RequestURI)).length

/-- Whether the final iteration's goroutine matches a route (its lookup key
is deterministically the last generated prefix); exactly then line 222
writes `r.RequestURI` into the shared variable. -/
def terminalFound (routes : Routes) (r : Request) : Bool :=
  (routes r.Method
    ((prefixList (basePathOf r.RequestURI)).getD (racyN r - 1) [])).isSome

/-- The timeline of values held by the shared `currentPathReq`: the
generated prefixes in write order, then the request-target if the final
iteration's goroutine writes it. -/
def racyVals (routes : Routes) (r : Request) : List Str :=
  prefixList (basePathOf r.RequestURI) ++
    (if terminalFound routes r then [r.RequestURI] else [])

/-- An interleaving of the racy loop: for every iteration, the timeline
position its lookup read (line 208) and its insert read (line 226) observe,
and the mutex-serialisation order of the inserts. -/
structure Sched where
  look : Nat → Nat
  ins : Nat → Nat
  perm : List Nat

/-- Monotone insert positions along the serialisation order: an insert
performed later in real time cannot observe an earlier write. -/
def chainMono (ins : Nat → Nat) : List Nat → Bool
  | [] => true
  | [_] => true
  | a :: b :: rest => decide (ins a ≤ ins b) && chainMono ins (b :: rest)

/-- Realisability of a schedule: reads happen at or after the spawn
position and within the timeline, the lookup read comes before the insert
read, the final iteration's reads are the deterministic ones, the
serialisation order covers every iteration once, and insert positions are
monotone along it. -/
def ValidSched (routes : Routes) (r : Request) (sch : Sched) : Bool :=
  ((List.range (racyN r)).all fun i =>
      decide (i ≤ sch.look i) && decide (sch.look i ≤ sch.ins i) &&
      decide (sch.ins i < (racyVals routes r).length)) &&
  decide (sch.look (racyN r - 1) = racyN r - 1) &&
  (!(terminalFound routes r) ||
    decide (sch.ins (racyN r - 1) = (racyVals routes r).length - 1)) &&
  decide (sch.perm.Perm (List.range (racyN r))) &&
  chainMono sch.ins sch.perm

/-- The value iteration `i`'s lookup (line 208) observes. -/
def lookKey (routes : Routes) (r : Request) (sch : Sched) (i : Nat) : Str :=
  (racyVals routes r).getD (sch.look i) []

/-- The value iteration `i`'s insert (line 226) observes. -/
def insKey (routes : Routes) (r : Request) (sch : Sched) (i : Nat) : Str :=
  (racyVals routes r).getD (sch.ins i) []

/-- The request passed to the handler at iteration `i` (main.go lines
210-219): the original request at the final index, the query-cleared
shallow copy elsewhere.  This depends only on the per-iteration loop
variable `i`, not on the racy shared string. -/
def racyReq (r : Request) (i : Nat) : Request :=
  if i = racyN r - 1 then r else clearQuery r

/-- The handler invocations of one interleaving, in iteration order:
iteration `i` invokes whatever handler is registered at the prefix its
lookup read observed. -/
def racyCalls (routes : Routes) (r : Request) (sch : Sched) :
    List (Nat × Str × Request) :=
  (List.range (racyN r)).filterMap fun i =>
    (routes r.Method (lookKey routes r sch i)).map
      (fun _ => (i, lookKey routes r sch i, racyReq r i))

/-- The bundle insertion performed by iteration `i`, if its lookup matched:
the captured writer of the invoked handler, keyed by whatever the insert
read observed. -/
def racyInsert (routes : Routes) (r : Request) (sch : Sched) (i : Nat) :
    Option (Str × InterceptWriter) :=
  (routes r.Method (lookKey routes r sch i)).map
    (fun h => (insKey routes r sch i, h NewInterceptWriter (racyReq r i)))

/-- The Preload Bundle of one interleaving: the inserts applied in the
schedule's mutex-serialisation order. -/
def racyBundle (routes : Routes) (r : Request) (sch : Sched) : Bundle :=
  (sch.perm.filterMap (racyInsert routes r sch)).foldl
    (fun m kv => mapUpdate m kv.1 kv.2) (fun _ => none)

/-- The request handler with the document-route dispatch expressed for an
arbitrary interleaving `sch` of the racy loop; apart from the bundle fed to
`bundleResponse`, it is identical to `serve` (main.go lines 166-277). -/
def serveR (routes : Routes) (apiBase : Str) (parts : Str × Str)
    (staggaredTestingMode : Bool) (enc : Bundle → Str) (sch : Sched)
    (r : Request) : ServeOutcome :=
  if !(apiBase.isPrefixOf r.URL.Path) then
    if !(requestIsDefaultIndex r.URL.Path) then
      ServeOutcome.staticServe
    else if !staggaredTestingMode then
      ServeOutcome.resp (bundleResponse (racyBundle routes r sch) parts enc r.RequestURI)
    else
      ServeOutcome.resp { headers := [], statusCode := 200, body := parts.1 ++ parts.2 }
  else
    match routes r.Method (apiLookupPath apiBase r.URL.Path) with
    | some h =>
      ServeOutcome.resp
        { headers := [], statusCode := 200, body := (h NewInterceptWriter r).Body }
    | none =>
      ServeOutcome.resp { headers := [], statusCode := 200, body := [] }

/-- The close-of-body anchor searched for in the shell document. -/
def bodyCloseTag : Str := str "</body>"

/-- The largest index at which `sub` begins in `s` (Go `strings.LastIndex`),
or `none` when `sub` does not occur. -/
def lastIndexOf (s sub : Str) : Option Nat :=
  ((List.range (s.length + 1)).filter (fun i => sub.isPrefixOf (s.drop i))).getLast?

/-- The smallest index at which `sub` begins in `s` (Go `strings.Index`). -/
def firstIndexOf (s sub : Str) : Option Nat :=
  ((List.range (s.length + 1)).filter (fun i => sub.isPrefixOf (s.drop i))).head?

/-- Splitting of the shell document at setup time (main.go lines 147-157):
cut at the last case-insensitive occurrence of `</body>`, or keep the whole
text with an empty tail when the anchor is absent. -/
def buildParts (shell : Str) : Str × Str :=
  match lastIndexOf (lowerStr shell) bodyCloseTag with
  | some idx => (shell.take idx, shell.drop idx)
  | none => (shell, [])

/-- Per-request reassembly (main.go line 246): head, marker, tail. -/
def injectMarker (parts : Str × Str) (marker : Str) : Str :=
  parts.1 ++ marker ++ parts.2

/-- The HTML produced for a given shell text and marker string. -/
def buildHtml (shell marker : Str) : Str :=
  injectMarker (buildParts shell) marker

/-- Modelled from the spec wording of claim C7: insertion immediately before
the FIRST case-insensitive occurrence of `</body>`, appended at the end when
absent.  Kept for comparison against `buildHtml`, which follows the source. -/
def buildHtmlFirstSpec (shell marker : Str) : Str :=
  match firstIndexOf (lowerStr shell) bodyCloseTag with
  | some idx => shell.take idx ++ marker ++ shell.drop idx
  | none => shell ++ marker

/-! ### Lemmas about path splitting and joining -/

theorem splitSlash_ne_nil (l : Str) : splitSlash l ≠ [] := by
  cases l with
  | nil => simp [splitSlash]
  | cons ch rest =>
    simp only [splitSlash]
    cases splitSlash rest with
    | nil => simp
    | cons a t => by_cases hc : ch = '/' <;> simp [hc]

theorem splitSlash_exists_cons (l : Str) : ∃ a t, splitSlash l = a :: t := by
  cases h : splitSlash l with
  | nil => exact absurd h (splitSlash_ne_nil l)
  | cons a t => exact ⟨a, t, rfl⟩

theorem splitSlash_cons_eq (ch : Char) (rest : Str) (a : Str) (t : List Str)
    (h : splitSlash rest = a :: t) :
    splitSlash (ch :: rest) = if ch = '/' then [] :: a :: t else (ch :: a) :: t := by
  simp only [splitSlash, h]

theorem joinSlash_cons_cons (s s2 : Str) (rest : List Str) :
    joinSlash (s :: s2 :: rest) = s ++ '/' :: joinSlash (s2 :: rest) := rfl

theorem joinSlash_splitSlash (l : Str) : joinSlash (splitSlash l) = l := by
  induction l with
  | nil => rfl
  | cons ch rest ih =>
    obtain ⟨a, t, hsp⟩ := splitSlash_exists_cons rest
    rw [hsp] at ih
    rw [splitSlash_cons_eq ch rest a t hsp]
    by_cases hc : ch = '/'
    · rw [if_pos hc, joinSlash_cons_cons, hc]
      simpa using ih
    · rw [if_neg hc]
      cases t with
      | nil =>
        simp only [joinSlash] at ih ⊢
        rw [ih]
      | cons b t2 =>
        rw [joinSlash_cons_cons] at ih ⊢
        rw [List.cons_append, ih]

theorem splitSlash_no_slash (l : Str) : ∀ s ∈ splitSlash l, '/' ∉ s := by
  induction l with
  | nil =>
    intro s hs
    simp [splitSlash] at hs
    simp [hs]
  | cons ch rest ih =>
    obtain ⟨a, t, hsp⟩ := splitSlash_exists_cons rest
    intro s hs
    rw [splitSlash_cons_eq ch rest a t hsp] at hs
    by_cases hc : ch = '/'
    · rw [if_pos hc] at hs
      rcases List.mem_cons.mp hs with h1 | h2
      · simp [h1]
      · exact ih s (hsp ▸ h2)
    · rw [if_neg hc] at hs
      rcases List.mem_cons.mp hs with h1 | h2
      · subst h1
        intro hm
        rcases List.mem_cons.mp hm with h3 | h4
        · exact hc h3.symm
        · exact ih a (by rw [hsp]; simp) h4
      · exact ih s (by rw [hsp]; simp [h2])

theorem splitSlash_chars (l : Str) : ∀ s ∈ splitSlash l, ∀ ch ∈ s, ch ∈ l := by
  induction l with
  | nil =>
    intro s hs
    simp [splitSlash] at hs
    simp [hs]
  | cons c0 rest ih =>
    obtain ⟨a, t, hsp⟩ := splitSlash_exists_cons rest
    intro s hs ch hch
    rw [splitSlash_cons_eq c0 rest a t hsp] at hs
    by_cases hc : c0 = '/'
    · rw [if_pos hc] at hs
      rcases List.mem_cons.mp hs with h1 | h2
      · subst h1; simp at hch
      · exact List.mem_cons_of_mem c0 (ih s (hsp ▸ h2) ch hch)
    · rw [if_neg hc] at hs
      rcases List.mem_cons.mp hs with h1 | h2
      · subst h1
        rcases List.mem_cons.mp hch with h3 | h4
        · exact h3 ▸ List.mem_cons_self c0 rest
        · exact List.mem_cons_of_mem c0 (ih a (by rw [hsp]; simp) ch h4)
      · exact List.mem_cons_of_mem c0 (ih s (by rw [hsp]; simp [h2]) ch hch)

theorem takeWhile_all (p : Char → Bool) (l : Str) (h : ∀ a ∈ l, p a = true) :
    l.takeWhile p = l := by
  induction l with
  | nil => rfl
  | cons a t ih =>
    simp [List.takeWhile_cons, h a (by simp), ih (fun x hx => h x (by simp [hx]))]

theorem basePathOf_ne_qmark (uri : Str) : ∀ ch ∈ basePathOf uri, ch ≠ '?' := by
  intro ch h
  have := List.mem_takeWhile_imp h
  simpa using this

theorem basePathOf_of_no_qmark (uri : Str) (h : '?' ∉ uri) : basePathOf uri = uri := by
  unfold basePathOf
  exact takeWhile_all _ uri (fun a ha => by
    simp only [decide_eq_true_eq]
    intro heq
    exact h (heq ▸ ha))

/-! ### Lemmas about prefix generation -/

theorem prefixesFrom_length (segs : List Str) : ∀ c, (prefixesFrom c segs).length = segs.length := by
  induction segs with
  | nil => intro c; rfl
  | cons s rest ih =>
    intro c
    simp [prefixesFrom, ih]

theorem prefixesFrom_getLast (segs : List Str) :
    ∀ c, segs ≠ [] →
      (prefixesFrom c segs).getLast? = some (segs.foldl prefixStep c) := by
  induction segs with
  | nil => intro c h; exact absurd rfl h
  | cons s rest ih =>
    intro c _
    cases rest with
    | nil => rfl
    | cons s2 rest2 =>
      have hrec := ih (prefixStep c s) (by simp)
      show (prefixStep c s :: prefixesFrom (prefixStep c s) (s2 :: rest2)).getLast? = _
      rw [List.getLast?_cons, List.foldl_cons, hrec]
      simp

theorem prefixStep_length_lt (c s : Str) (hs : s ≠ []) :
    c.length < (prefixStep c s).length := by
  unfold prefixStep
  have hs0 : 0 < s.length := List.length_pos.mpr hs
  split
  · simp only [List.length_append]; omega
  · simp only [List.length_append, str]; simp; omega

theorem prefixesFrom_pairwise (t : List Str) :
    ∀ c, allNonempty t = true →
      List.Pairwise (fun a b => a.length < b.length) (c :: prefixesFrom c t) := by
  induction t with
  | nil => intro c _; simp [prefixesFrom]
  | cons s rest ih =>
    intro c h
    have hs : s ≠ [] := by
      simp only [allNonempty, Bool.and_eq_true, Bool.not_eq_true'] at h
      exact fun he => by simp [he] at h
    have hrest : allNonempty rest = true := by
      simp only [allNonempty, Bool.and_eq_true] at h
      exact h.2
    have ihp := ih (prefixStep c s) hrest
    show List.Pairwise _ (c :: prefixStep c s :: prefixesFrom (prefixStep c s) rest)
    constructor
    · intro b hb
      rcases List.mem_cons.mp hb with h1 | h2
      · exact h1 ▸ prefixStep_length_lt c s hs
      · have h3 : (prefixStep c s).length < b.length := by
          rcases List.pairwise_cons.mp ihp with ⟨hall, _⟩
          exact hall b h2
        exact Nat.lt_trans (prefixStep_length_lt c s hs) h3
    · exact ihp

theorem prefixStep_chars (c s : Str) (ch : Char) (h : ch ∈ prefixStep c s) :
    ch ∈ c ∨ ch = '/' ∨ ch ∈ s := by
  unfold prefixStep at h
  split at h
  · rcases List.mem_append.mp h with h1 | h2
    · exact Or.inl h1
    · exact Or.inr (Or.inr h2)
  · rcases List.mem_append.mp h with h1 | h2
    · rcases List.mem_append.mp h1 with h3 | h4
      · exact Or.inl h3
      · simp [str] at h4
        exact Or.inr (Or.inl h4)
    · exact Or.inr (Or.inr h2)

theorem prefixesFrom_chars (segs : List Str) :
    ∀ c p, p ∈ prefixesFrom c segs → ∀ ch ∈ p, ch ∈ c ∨ ch = '/' ∨ ∃ s ∈ segs, ch ∈ s := by
  induction segs with
  | nil => intro c p hp; simp [prefixesFrom] at hp
  | cons s rest ih =>
    intro c p hp ch hch
    rcases List.mem_cons.mp hp with h1 | h2
    · rcases prefixStep_chars c s ch (h1 ▸ hch) with h | h | h
      · exact Or.inl h
      · exact Or.inr (Or.inl h)
      · exact Or.inr (Or.inr ⟨s, by simp, h⟩)
    · rcases ih (prefixStep c s) p h2 ch hch with h | h | h
      · rcases prefixStep_chars c s ch h with h3 | h3 | h3
        · exact Or.inl h3
        · exact Or.inr (Or.inl h3)
        · exact Or.inr (Or.inr ⟨s, by simp, h3⟩)
      · exact Or.inr (Or.inl h)
      · obtain ⟨s2, hs2, hchs⟩ := h
        exact Or.inr (Or.inr ⟨s2, by simp [hs2], hchs⟩)

theorem prefixList_no_qmark (uri : Str) :
    ∀ p ∈ prefixList (basePathOf uri), '?' ∉ p := by
  intro p hp hq
  rcases prefixesFrom_chars (splitSlash (basePathOf uri)) [] p hp '?' hq with h | h | h
  · simp at h
  · simp at h
  · obtain ⟨s, hs, hqs⟩ := h
    exact basePathOf_ne_qmark uri '?' (splitSlash_chars _ s hs '?' hqs) rfl

/-! ### Reconstruction of the full path from its prefixes -/

theorem append_slash_getLast (c s : Str) (hs : s ≠ []) :
    (c ++ '/' :: s).getLast? = s.getLast? := by
  rw [List.getLast?_append_of_ne_nil c (show ('/' :: s : Str) ≠ [] by simp)]
  rw [show ('/' :: s) = ['/'] ++ s from rfl, List.getLast?_append_of_ne_nil ['/'] hs]

theorem getLast_ne_slash (s : Str) (_hs : s ≠ []) (hns : '/' ∉ s) :
    s.getLast? ≠ some '/' := by
  intro h
  exact hns (List.mem_of_getLast?_eq_some h)

theorem prefixStep_eq_append (c s : Str) (hlast : c.getLast? ≠ some '/') :
    prefixStep c s = c ++ '/' :: s := by
  unfold prefixStep
  rw [if_neg (fun hb => hlast hb.2)]
  simp [str]

theorem foldl_prefixStep_app (t : List Str) :
    ∀ c, t ≠ [] → allNonempty t = true → (∀ s ∈ t, '/' ∉ s) →
      c.getLast? ≠ some '/' →
      List.foldl prefixStep c t = c ++ '/' :: joinSlash t := by
  induction t with
  | nil => intro c h; exact absurd rfl h
  | cons s rest ih =>
    intro c _ hall hns hlast
    have hs : s ≠ [] := by
      simp only [allNonempty, Bool.and_eq_true, Bool.not_eq_true'] at hall
      exact fun he => by simp [he] at hall
    have hrest : allNonempty rest = true := by
      simp only [allNonempty, Bool.and_eq_true] at hall
      exact hall.2
    have hstep : prefixStep c s = c ++ '/' :: s := prefixStep_eq_append c s hlast
    cases rest with
    | nil =>
      show prefixStep c s = c ++ '/' :: joinSlash [s]
      simpa [joinSlash] using hstep
    | cons s2 rest2 =>
      have hlast2 : (prefixStep c s).getLast? ≠ some '/' := by
        rw [hstep, append_slash_getLast c s hs]
        exact getLast_ne_slash s hs (hns s (by simp))
      have hrec := ih (prefixStep c s) (by simp) hrest
        (fun x hx => hns x (by simp [hx])) hlast2
      show List.foldl prefixStep (prefixStep c s) (s2 :: rest2) = _
      rw [hrec, hstep, joinSlash_cons_cons]
      simp

theorem foldl_prefixList_eq (bp : Str) (hn : niceSegs (splitSlash bp) = true) :
    List.foldl prefixStep [] (splitSlash bp) = bp := by
  obtain ⟨s0, t, hsp⟩ := splitSlash_exists_cons bp
  rw [hsp]
  simp only [niceSegs, hsp, Bool.and_eq_true, Bool.not_eq_true'] at hn
  obtain ⟨⟨hs0, ht⟩, hall⟩ := hn
  have hs0' : s0 = [] := by simpa using hs0
  have ht' : t ≠ [] := by simpa using ht
  have hns : ∀ s ∈ t, '/' ∉ s := fun s hsmem =>
    splitSlash_no_slash bp s (by rw [hsp]; simp [hsmem])
  have hjoin : bp = '/' :: joinSlash t := by
    conv_lhs => rw [← joinSlash_splitSlash bp]
    rw [hsp, hs0']
    cases t with
    | nil => exact absurd rfl ht'
    | cons t0 t2 => rw [joinSlash_cons_cons]; rfl
  subst hs0'
  cases t with
  | nil => exact absurd rfl ht'
  | cons t0 t2 =>
    have ht0 : t0 ≠ [] := by
      simp only [allNonempty, Bool.and_eq_true, Bool.not_eq_true'] at hall
      exact fun he => by simp [he] at hall
    have hall2 : allNonempty t2 = true := by
      simp only [allNonempty, Bool.and_eq_true] at hall
      exact hall.2
    have hstep0 : prefixStep [] [] = ['/'] := by decide
    have hstep1 : prefixStep ['/'] t0 = '/' :: t0 := by
      unfold prefixStep
      rw [if_pos ⟨by simp, rfl⟩]
      rfl
    show List.foldl prefixStep (prefixStep [] []) (t0 :: t2) = bp
    rw [hstep0]
    show List.foldl prefixStep (prefixStep ['/'] t0) t2 = bp
    rw [hstep1]
    cases t2 with
    | nil =>
      rw [hjoin]
      rfl
    | cons s2 rest2 =>
      have hlast2 : ('/' :: t0).getLast? ≠ some '/' := by
        rw [show ('/' :: t0) = ['/'] ++ t0 from rfl, List.getLast?_append_of_ne_nil ['/'] ht0]
        exact getLast_ne_slash t0 ht0 (hns t0 (by simp))
      rw [foldl_prefixStep_app (s2 :: rest2) ('/' :: t0) (by simp) hall2
        (fun x hx => hns x (by simp [hx])) hlast2]
      rw [hjoin, joinSlash_cons_cons]
      simp

/-! ### Characterisation of the dispatch loop -/

/-- The sequence of handler invocations the loop performs (specification
companion of the ghost `calls` log). -/
def callsSpec (routes : Routes) (r : Request) (n : Nat) :
    List Str → Nat → Str → List (Nat × Str × Request)
  | [], _, _ => []
  | s :: rest, i, cur =>
    let c := prefixStep cur s
    match routes r.Method c with
    | some _ =>
      (i, c, if i = n - 1 then r else clearQuery r) :: callsSpec routes r n rest (i + 1) c
    | none => callsSpec routes r n rest (i + 1) c

/-- The sequence of bundle insertions the loop performs, in order. -/
def writesSpec (routes : Routes) (r : Request) (n : Nat) :
    List Str → Nat → Str → List (Str × InterceptWriter)
  | [], _, _ => []
  | s :: rest, i, cur =>
    let c := prefixStep cur s
    match routes r.Method c with
    | some h =>
      (if i = n - 1 then r.RequestURI else c,
        h NewInterceptWriter (if i = n - 1 then r else clearQuery r)) ::
        writesSpec routes r n rest (i + 1) c
    | none => writesSpec routes r n rest (i + 1) c

theorem dispatchGo_calls (routes : Routes) (r : Request) (n : Nat) (segs : List Str) :
    ∀ i cur st, i + segs.length = n →
      (dispatchGo routes r n segs i cur st).calls = st.calls ++ callsSpec routes r n segs i cur := by
  induction segs with
  | nil => intro i cur st _; simp [dispatchGo, callsSpec]
  | cons s rest ih =>
    intro i cur st hn
    simp only [dispatchGo, callsSpec]
    cases hr : routes r.Method (prefixStep cur s) with
    | none =>
      exact ih (i + 1) (prefixStep cur s) st (by simp at hn; omega)
    | some h =>
      by_cases hl : i = n - 1
      · have hrest : rest = [] := by
          simp only [List.length_cons] at hn
          have : rest.length = 0 := by omega
          exact List.length_eq_zero.mp this
        subst hrest
        simp [hl, dispatchGo, callsSpec]
      · simp only [if_neg hl]
        rw [ih (i + 1) (prefixStep cur s) _ (by simp at hn; omega)]
        simp

theorem dispatchGo_bundle (routes : Routes) (r : Request) (n : Nat) (segs : List Str) :
    ∀ i cur st, i + segs.length = n →
      (dispatchGo routes r n segs i cur st).bundle =
        (writesSpec routes r n segs i cur).foldl (fun m kv => mapUpdate m kv.1 kv.2) st.bundle := by
  induction segs with
  | nil => intro i cur st _; simp [dispatchGo, writesSpec]
  | cons s rest ih =>
    intro i cur st hn
    simp only [dispatchGo, writesSpec]
    cases hr : routes r.Method (prefixStep cur s) with
    | none =>
      exact ih (i + 1) (prefixStep cur s) st (by simp at hn; omega)
    | some h =>
      by_cases hl : i = n - 1
      · have hrest : rest = [] := by
          simp only [List.length_cons] at hn
          have : rest.length = 0 := by omega
          exact List.length_eq_zero.mp this
        subst hrest
        simp [hl, dispatchGo, writesSpec]
      · simp only [if_neg hl]
        rw [ih (i + 1) (prefixStep cur s) _ (by simp at hn; omega)]
        simp

theorem runDispatch_calls (routes : Routes) (r : Request) :
    (runDispatch routes r).calls =
      callsSpec routes r (splitSlash (basePathOf r.RequestURI)).length
        (splitSlash (basePathOf r.RequestURI)) 0 [] := by
  unfold runDispatch
  rw [dispatchGo_calls routes r _ _ 0 [] _ (by simp)]
  simp

theorem runDispatch_bundle (routes : Routes) (r : Request) :
    (runDispatch routes r).bundle =
      (writesSpec routes r (splitSlash (basePathOf r.RequestURI)).length
          (splitSlash (basePathOf r.RequestURI)) 0 []).foldl
        (fun m kv => mapUpdate m kv.1 kv.2) (fun _ => none) := by
  unfold runDispatch
  rw [dispatchGo_bundle routes r _ _ 0 [] _ (by simp)]

theorem foldl_mapUpdate_not_mem (ws : List (Str × InterceptWriter)) :
    ∀ (m : Bundle) (k : Str), k ∉ ws.map Prod.fst →
      (ws.foldl (fun m kv => mapUpdate m kv.1 kv.2) m) k = m k := by
  induction ws with
  | nil => intro m k _; rfl
  | cons kv rest ih =>
    intro m k hk
    simp only [List.map_cons, List.mem_cons] at hk
    push_neg at hk
    rw [List.foldl_cons, ih _ k hk.2]
    simp [mapUpdate, hk.1]

theorem foldl_mapUpdate_last (ws1 ws2 : List (Str × InterceptWriter)) (m : Bundle)
    (k : Str) (v : InterceptWriter) (hk : k ∉ ws2.map Prod.fst) :
    ((ws1 ++ (k, v) :: ws2).foldl (fun m kv => mapUpdate m kv.1 kv.2) m) k = some v := by
  rw [List.foldl_append, List.foldl_cons]
  rw [foldl_mapUpdate_not_mem ws2 _ k hk]
  simp [mapUpdate]

theorem callsSpec_countP (routes : Routes) (r : Request) (n : Nat) (p : Str) (segs : List Str) :
    ∀ i cur,
      (callsSpec routes r n segs i cur).countP (fun x => decide (x.2.1 = p)) =
        if (routes r.Method p).isSome then
          (prefixesFrom cur segs).countP (fun q => decide (q = p))
        else 0 := by
  induction segs with
  | nil => intro i cur; simp [callsSpec, prefixesFrom]
  | cons s rest ih =>
    intro i cur
    simp only [callsSpec, prefixesFrom]
    cases hr : routes r.Method (prefixStep cur s) with
    | none =>
      rw [List.countP_cons]
      by_cases hp : prefixStep cur s = p
      · rw [ih (i + 1) (prefixStep cur s)]
        rw [← hp, hr]
        simp
      · rw [ih (i + 1) (prefixStep cur s)]
        simp [hp]
    | some h =>
      rw [List.countP_cons, List.countP_cons]
      by_cases hp : prefixStep cur s = p
      · rw [ih (i + 1) (prefixStep cur s)]
        rw [← hp, hr]
        simp
      · rw [ih (i + 1) (prefixStep cur s)]
        simp [hp]

theorem writesSpec_cons (routes : Routes) (r : Request) (n : Nat) (s : Str)
    (rest : List Str) (i : Nat) (cur : Str) :
    writesSpec routes r n (s :: rest) i cur =
      match routes r.Method (prefixStep cur s) with
      | some h =>
        (if i = n - 1 then r.RequestURI else prefixStep cur s,
          h NewInterceptWriter (if i = n - 1 then r else clearQuery r)) ::
          writesSpec routes r n rest (i + 1) (prefixStep cur s)
      | none => writesSpec routes r n rest (i + 1) (prefixStep cur s) := rfl

theorem writesSpec_structure (routes : Routes) (r : Request) (n : Nat) (segs : List Str) :
    ∀ i cur, i + segs.length = n → segs ≠ [] →
      writesSpec routes r n segs i cur =
        ((prefixesFrom cur segs).dropLast.filterMap
          (fun q => (routes r.Method q).map
            (fun h => (q, h NewInterceptWriter (clearQuery r)))))
        ++ ((routes r.Method (segs.foldl prefixStep cur)).map
            (fun h => (r.RequestURI, h NewInterceptWriter r))).toList := by
  induction segs with
  | nil => intro i cur _ hne; exact absurd rfl hne
  | cons s rest ih =>
    intro i cur hn _
    cases rest with
    | nil =>
      have hi : i = n - 1 := by simp at hn; omega
      rw [writesSpec_cons]
      cases hr : routes r.Method (prefixStep cur s) with
      | none => simp [writesSpec, prefixesFrom, hr]
      | some h => simp [writesSpec, prefixesFrom, hi, hr]
    | cons s2 rest2 =>
      have hi : i ≠ n - 1 := by simp at hn; omega
      have hrec := ih (i + 1) (prefixStep cur s) (by simp at hn ⊢; omega) (by simp)
      have hdl : (prefixesFrom cur (s :: s2 :: rest2)).dropLast
          = prefixStep cur s :: (prefixesFrom (prefixStep cur s) (s2 :: rest2)).dropLast := by
        simp [prefixesFrom]
      rw [writesSpec_cons]
      cases hr : routes r.Method (prefixStep cur s) with
      | none =>
        rw [hrec]
        rw [show List.foldl prefixStep cur (s :: s2 :: rest2)
            = List.foldl prefixStep (prefixStep cur s) (s2 :: rest2) from rfl]
        rw [hdl, List.filterMap_cons]
        simp [hr]
      | some h =>
        rw [if_neg hi, if_neg hi, hrec]
        rw [show List.foldl prefixStep cur (s :: s2 :: rest2)
            = List.foldl prefixStep (prefixStep cur s) (s2 :: rest2) from rfl]
        rw [hdl, List.filterMap_cons]
        simp [hr]

/-! ### Facts about the prefix list of a well-formed path -/

theorem prefixList_eq_cons (bp : Str) (s0 : Str) (t : List Str)
    (hsp : splitSlash bp = s0 :: t) (hs0 : s0 = []) :
    prefixList bp = ['/'] :: prefixesFrom ['/'] t := by
  unfold prefixList
  rw [hsp, hs0]
  show prefixStep [] [] :: prefixesFrom (prefixStep [] []) t = _
  rw [show prefixStep [] [] = ['/'] from by decide]

theorem prefixList_pairwise (bp : Str) (hn : niceSegs (splitSlash bp) = true) :
    List.Pairwise (fun a b => a.length < b.length) (prefixList bp) := by
  obtain ⟨s0, t, hsp⟩ := splitSlash_exists_cons bp
  simp only [niceSegs, hsp, Bool.and_eq_true] at hn
  obtain ⟨⟨hs0, _⟩, hall⟩ := hn
  rw [prefixList_eq_cons bp s0 t hsp (by simpa using hs0)]
  exact prefixesFrom_pairwise t ['/'] hall

theorem prefixList_nodup (bp : Str) (hn : niceSegs (splitSlash bp) = true) :
    (prefixList bp).Nodup := by
  refine (prefixList_pairwise bp hn).imp ?_
  intro a b hab heq
  rw [heq] at hab
  exact Nat.lt_irrefl _ hab

theorem prefixList_getLast (bp : Str) (hn : niceSegs (splitSlash bp) = true) :
    (prefixList bp).getLast? = some bp := by
  unfold prefixList
  rw [prefixesFrom_getLast _ _ (splitSlash_ne_nil bp), foldl_prefixList_eq bp hn]

theorem prefixList_split (bp : Str) (hn : niceSegs (splitSlash bp) = true) :
    prefixList bp = (prefixList bp).dropLast ++ [bp] := by
  have hne : prefixList bp ≠ [] := by
    intro h
    have := prefixList_getLast bp hn
    rw [h] at this
    simp at this
  have h1 := List.dropLast_append_getLast hne
  have h2 := List.getLast?_eq_getLast _ hne
  rw [prefixList_getLast bp hn] at h2
  have h3 : (prefixList bp).getLast hne = bp := by
    injection h2.symm
  conv_lhs => rw [← h1]
  rw [h3]

theorem prefixList_dropLast_lt (bp : Str) (hn : niceSegs (splitSlash bp) = true) :
    ∀ q ∈ (prefixList bp).dropLast, q.length < bp.length := by
  intro q hq
  have hsplit := prefixList_split bp hn
  have hpair := prefixList_pairwise bp hn
  rw [hsplit] at hpair
  exact (List.pairwise_append.mp hpair).2.2 q hq bp (by simp)

/-- Keys of bundle writes coming from intermediate prefixes are those
prefixes themselves. -/
theorem writes_dl_keys (routes : Routes) (r : Request) (L : List Str) :
    ∀ x ∈ L.filterMap (fun q => (routes r.Method q).map
      (fun h => (q, h NewInterceptWriter (clearQuery r)))), x.1 ∈ L := by
  intro x hx
  obtain ⟨q, hq, heq⟩ := List.mem_filterMap.mp hx
  obtain ⟨h, _, hxq⟩ := Option.map_eq_some'.mp heq
  rw [← hxq]
  exact hq

/-- A prefix of the query-stripped path is never the full request-target
unless the request-target carries no query string, in which case the only
candidate is the base path itself. -/
theorem prefix_ne_requestURI (r : Request) (q : Str)
    (hq : q ∈ prefixList (basePathOf r.RequestURI))
    (hqbp : q ≠ basePathOf r.RequestURI) : q ≠ r.RequestURI := by
  by_cases hmem : '?' ∈ r.RequestURI
  · intro heq
    exact prefixList_no_qmark r.RequestURI q hq (heq ▸ hmem)
  · intro heq
    exact hqbp (heq.trans (basePathOf_of_no_qmark r.RequestURI hmem).symm)


/-! ### Header promotion preserves per-name value order -/

/-- Keys of an association-list header are pairwise distinct (always true of
the Go `map`-backed headers the promotion loop builds). -/
def uniqueKeys : Header → Bool
  | [] => true
  | q :: rest => !(rest.any (fun p => decide (p.1 = q.1))) && uniqueKeys rest

theorem headerValues_cons (q : Str × List Str) (rest : Header) (k : Str) :
    headerValues (q :: rest) k = (if q.1 = k then q.2 else []) ++ headerValues rest k := by
  by_cases h : q.1 = k <;> simp [headerValues, h]

theorem headerValues_of_no_key (hs : Header) (k : Str)
    (h : hs.any (fun p => decide (p.1 = k)) = false) : headerValues hs k = [] := by
  induction hs with
  | nil => rfl
  | cons q rest ih =>
    simp only [List.any_cons, Bool.or_eq_false_iff, decide_eq_false_iff_not] at h
    rw [headerValues_cons, if_neg h.1, ih h.2]
    rfl

theorem headerAdd_any_ne (hs : Header) (k0 v kk : Str) (hne : kk ≠ k0) :
    (headerAdd hs k0 v).any (fun p => decide (p.1 = kk)) =
      hs.any (fun p => decide (p.1 = kk)) := by
  induction hs with
  | nil =>
    simp only [headerAdd, List.any_cons, List.any_nil, Bool.or_false, List.any_eq_false]
    simp only [decide_eq_false_iff_not]
    exact fun h => hne h.symm
  | cons q rest ih =>
    by_cases hq : q.1 = k0
    · simp [headerAdd, hq]
    · simp only [headerAdd, if_neg hq, List.any_cons, ih]

theorem headerAdd_uniqueKeys (hs : Header) (k0 v : Str) (h : uniqueKeys hs = true) :
    uniqueKeys (headerAdd hs k0 v) = true := by
  induction hs with
  | nil => simp [headerAdd, uniqueKeys]
  | cons q rest ih =>
    simp only [uniqueKeys, Bool.and_eq_true, Bool.not_eq_true'] at h
    by_cases hq : q.1 = k0
    · simp only [headerAdd, if_pos hq, uniqueKeys, Bool.and_eq_true, Bool.not_eq_true']
      exact h
    · simp only [headerAdd, if_neg hq, uniqueKeys, Bool.and_eq_true, Bool.not_eq_true']
      refine ⟨?_, ih h.2⟩
      rw [headerAdd_any_ne rest k0 v q.1 (fun he => hq he)]
      exact h.1

theorem headerValues_headerAdd (hs : Header) (k0 v k : Str) (hu : uniqueKeys hs = true) :
    headerValues (headerAdd hs k0 v) k =
      headerValues hs k ++ (if k0 = k then [v] else []) := by
  induction hs with
  | nil =>
    by_cases hk : k0 = k <;> simp [headerAdd, headerValues, hk]
  | cons q rest ih =>
    simp only [uniqueKeys, Bool.and_eq_true, Bool.not_eq_true'] at hu
    by_cases hq : q.1 = k0
    · rw [show headerAdd (q :: rest) k0 v = (q.1, q.2 ++ [v]) :: rest from by
        simp [headerAdd, hq]]
      rw [headerValues_cons, headerValues_cons]
      by_cases hk : q.1 = k
      · have hk0 : k0 = k := hq ▸ hk
        have hrest : headerValues rest k = [] := by
          apply headerValues_of_no_key
          rw [← hk]
          exact hu.1
        rw [if_pos hk, if_pos hk, if_pos hk0, hrest]
        simp
      · have hk0 : ¬(k0 = k) := fun he => hk (hq.symm ▸ he)
        rw [if_neg hk, if_neg hk, if_neg hk0]
        simp
    · rw [show headerAdd (q :: rest) k0 v = q :: headerAdd rest k0 v from by
        simp [headerAdd, hq]]
      rw [headerValues_cons, headerValues_cons, ih hu.2, List.append_assoc]

theorem foldl_headerAdd_uniqueKeys (vs : List Str) :
    ∀ (acc : Header) (k0 : Str), uniqueKeys acc = true →
      uniqueKeys (vs.foldl (fun a v => headerAdd a k0 v) acc) = true := by
  induction vs with
  | nil => intro acc k0 h; exact h
  | cons v vs ih =>
    intro acc k0 h
    exact ih (headerAdd acc k0 v) k0 (headerAdd_uniqueKeys acc k0 v h)

theorem foldl_headerAdd_values (vs : List Str) :
    ∀ (acc : Header) (k0 k : Str), uniqueKeys acc = true →
      headerValues (vs.foldl (fun a v => headerAdd a k0 v) acc) k =
        headerValues acc k ++ (if k0 = k then vs else []) := by
  induction vs with
  | nil =>
    intro acc k0 k _
    by_cases hk : k0 = k <;> simp [hk]
  | cons v vs ih =>
    intro acc k0 k hu
    rw [List.foldl_cons, ih (headerAdd acc k0 v) k0 k (headerAdd_uniqueKeys acc k0 v hu)]
    rw [headerValues_headerAdd acc k0 v k hu]
    by_cases hk : k0 = k <;> simp [hk]

theorem promote_values (hs : Header) (k : Str) :
    headerValues (promote hs) k = headerValues hs k := by
  suffices hgen : ∀ (acc : Header), uniqueKeys acc = true →
      headerValues (hs.foldl (fun acc q => q.2.foldl (fun a v => headerAdd a q.1 v) acc) acc) k =
        headerValues acc k ++ headerValues hs k by
    have := hgen [] rfl
    simpa [promote, headerValues] using this
  induction hs with
  | nil => intro acc _; simp [headerValues]
  | cons q rest ih =>
    intro acc hu
    rw [List.foldl_cons]
    rw [ih (q.2.foldl (fun a v => headerAdd a q.1 v) acc)
      (foldl_headerAdd_uniqueKeys q.2 acc q.1 hu)]
    rw [foldl_headerAdd_values q.2 acc q.1 k hu, headerValues_cons, List.append_assoc]

/-! ### Characterisation of the last-anchor search -/

theorem isPrefixOf_nil_of_ne (sub : Str) (h : sub ≠ []) : sub.isPrefixOf [] = false := by
  cases sub with
  | nil => exact absurd rfl h
  | cons a l => rfl

theorem pairwise_lt_getLast_max (l : List Nat) (h : List.Pairwise (fun a b => a < b) l) :
    ∀ a, l.getLast? = some a → ∀ b ∈ l, b ≤ a := by
  induction l with
  | nil => intro a ha; simp at ha
  | cons x rest ih =>
    intro a ha b hb
    cases rest with
    | nil =>
      simp at ha hb
      omega
    | cons y t =>
      rw [List.getLast?_cons_cons] at ha
      have hpair := List.pairwise_cons.mp h
      have hmem : a ∈ y :: t := List.mem_of_getLast?_eq_some ha
      rcases List.mem_cons.mp hb with h1 | h2
      · have := hpair.1 a hmem
        omega
      · exact ih hpair.2 a ha b h2

theorem lastIndexOf_spec (s sub : Str) (hsub : sub ≠ []) :
    (lastIndexOf s sub = none → ∀ j, sub.isPrefixOf (s.drop j) = false) ∧
    (∀ i, lastIndexOf s sub = some i →
      i ≤ s.length ∧ sub.isPrefixOf (s.drop i) = true ∧
      ∀ j, i < j → sub.isPrefixOf (s.drop j) = false) := by
  constructor
  · intro hnone j
    by_cases hj : j < s.length + 1
    · unfold lastIndexOf at hnone
      rw [List.getLast?_eq_none_iff] at hnone
      have := (List.filter_eq_nil_iff.mp hnone) j (List.mem_range.mpr hj)
      rw [Bool.eq_false_iff]
      intro htrue
      exact this htrue
    · rw [List.drop_eq_nil_of_le (by omega)]
      exact isPrefixOf_nil_of_ne sub hsub
  · intro i hi
    have hmemf : i ∈ (List.range (s.length + 1)).filter
        (fun j => sub.isPrefixOf (s.drop j)) :=
      List.mem_of_getLast?_eq_some hi
    have hmem := List.mem_filter.mp hmemf
    have hibound : i < s.length + 1 := List.mem_range.mp hmem.1
    refine ⟨by omega, hmem.2, ?_⟩
    intro j hj
    by_cases hjb : j < s.length + 1
    · by_contra hcon
      rw [Bool.not_eq_false] at hcon
      have hjf : j ∈ (List.range (s.length + 1)).filter
          (fun j => sub.isPrefixOf (s.drop j)) :=
        List.mem_filter.mpr ⟨List.mem_range.mpr hjb, hcon⟩
      have hpair : List.Pairwise (fun a b => a < b)
          ((List.range (s.length + 1)).filter (fun j => sub.isPrefixOf (s.drop j))) :=
        (List.pairwise_lt_range _).filter _
      have := pairwise_lt_getLast_max _ hpair i hi j hjf
      omega
    · rw [List.drop_eq_nil_of_le (by omega)]
      exact isPrefixOf_nil_of_ne sub hsub

theorem callsSpec_mem (routes : Routes) (r : Request) (n : Nat) (segs : List Str) :
    ∀ i cur x, x ∈ callsSpec routes r n segs i cur →
      (x.1 = n - 1 → x.2.2 = r) ∧ (x.1 ≠ n - 1 → x.2.2 = clearQuery r) := by
  induction segs with
  | nil => intro i cur x hx; simp [callsSpec] at hx
  | cons s rest ih =>
    intro i cur x hx
    simp only [callsSpec] at hx
    cases hr : routes r.Method (prefixStep cur s) with
    | none =>
      rw [hr] at hx
      exact ih (i + 1) (prefixStep cur s) x hx
    | some h =>
      rw [hr] at hx
      rcases List.mem_cons.mp hx with h1 | h2
      · subst h1
        constructor
        · intro hl
          simp only at hl
          simp [hl]
        · intro hl
          simp only at hl
          simp [hl]
      · exact ih (i + 1) (prefixStep cur s) x h2

theorem prefixesFrom_chain (segs : List Str) :
    ∀ c, List.Chain' (fun a b => ∃ s ∈ segs, b = prefixStep a s) (prefixesFrom c segs) := by
  induction segs with
  | nil => intro c; simp [prefixesFrom]
  | cons s rest ih =>
    intro c
    show List.Chain' _ (prefixStep c s :: prefixesFrom (prefixStep c s) rest)
    have hrec : List.Chain' (fun a b => ∃ s2 ∈ s :: rest, b = prefixStep a s2)
        (prefixesFrom (prefixStep c s) rest) := by
      refine (ih (prefixStep c s)).imp ?_
      rintro a b ⟨s2, hs2, hb⟩
      exact ⟨s2, by simp [hs2], hb⟩
    cases rest with
    | nil => simp [prefixesFrom]
    | cons s2 r2 =>
      refine List.Chain'.cons ?_ hrec
      exact ⟨s2, by simp, rfl⟩

/-! ### Positional access lemmas and schedule facts -/

theorem getD_mem_of_lt (l : List Str) (j : Nat) (d : Str) (h : j < l.length) :
    l.getD j d ∈ l := by
  rw [List.getD_eq_getElem l d h]
  exact l.getElem_mem h

theorem getD_append_left (l l2 : List Str) (j : Nat) (d : Str) (h : j < l.length) :
    (l ++ l2).getD j d = l.getD j d := by
  induction l generalizing j with
  | nil => simp at h
  | cons a t ih =>
    cases j with
    | zero => rfl
    | succ m =>
      simpa [List.getD] using ih m (Nat.lt_of_succ_lt_succ (by simpa using h))

theorem getD_append_length (l : List Str) (a d : Str) :
    (l ++ [a]).getD l.length d = a := by
  induction l with
  | nil => rfl
  | cons b t ih => simp [List.getD, ih]

theorem validSched_bounds (routes : Routes) (r : Request) (sch : Sched)
    (hv : ValidSched routes r sch = true) (i : Nat) (hi : i < racyN r) :
    i ≤ sch.look i ∧ sch.look i ≤ sch.ins i ∧
      sch.ins i < (racyVals routes r).length := by
  simp only [ValidSched, Bool.and_eq_true, List.all_eq_true, decide_eq_true_eq] at hv
  have := hv.1.1.1.1 i (List.mem_range.mpr hi)
  simp only [Bool.and_eq_true, decide_eq_true_eq] at this
  exact ⟨this.1.1, this.1.2, this.2⟩

theorem validSched_lookLast (routes : Routes) (r : Request) (sch : Sched)
    (hv : ValidSched routes r sch = true) :
    sch.look (racyN r - 1) = racyN r - 1 := by
  simp only [ValidSched, Bool.and_eq_true, decide_eq_true_eq] at hv
  exact hv.1.1.1.2

theorem validSched_insLast (routes : Routes) (r : Request) (sch : Sched)
    (hv : ValidSched routes r sch = true) (ht : terminalFound routes r = true) :
    sch.ins (racyN r - 1) = (racyVals routes r).length - 1 := by
  simp only [ValidSched, Bool.and_eq_true, Bool.or_eq_true, Bool.not_eq_true',
    decide_eq_true_eq] at hv
  rcases hv.1.1.2 with h | h
  · rw [ht] at h
    cases h
  · exact h

theorem validSched_perm (routes : Routes) (r : Request) (sch : Sched)
    (hv : ValidSched routes r sch = true) :
    sch.perm.Perm (List.range (racyN r)) := by
  simp only [ValidSched, Bool.and_eq_true, decide_eq_true_eq] at hv
  exact hv.1.2

/-! ### Concrete fixtures used by witnesses and counterexamples -/

/-- A handler at the root returning session-style data. -/
def hRoot : Handler := fun w _ => w.write (str "SESSION")

/-- A handler at /item returning item data. -/
def hItem : Handler := fun w _ => w.write (str "ITEM")

/-- A handler that sets a multi-valued header. -/
def hHdr : Handler := fun w _ =>
  ((w.headerAddTo (str "X-A") (str "1")).headerAddTo (str "X-A") (str "2")).write (str "B")

/-- A registry with GET / and GET /item. -/
def routesRootItem : Routes :=
  addRoute (addRoute emptyRoutes methodGet (str "/") hRoot) methodGet (str "/item") hItem

/-- A registry with only GET /item, whose handler writes headers. -/
def routesHdr : Routes := addRoute emptyRoutes methodGet (str "/item") hHdr

/-- Request GET / (root document route). -/
def reqRoot : Request :=
  { Method := methodGet, RequestURI := str "/", URL := { Path := str "/", RawQuery := [] } }

/-- Request GET /?q=1 (root document route with a query string). -/
def reqRootQ : Request :=
  { Method := methodGet, RequestURI := str "/?q=1",
    URL := { Path := str "/", RawQuery := str "q=1" } }

/-- Request GET /item. -/
def reqItem : Request :=
  { Method := methodGet, RequestURI := str "/item",
    URL := { Path := str "/item", RawQuery := [] } }

/-- Request GET /item?id=goat. -/
def reqItemQ : Request :=
  { Method := methodGet, RequestURI := str "/item?id=goat",
    URL := { Path := str "/item", RawQuery := str "id=goat" } }

/-- Request GET /logo.png (a static asset path). -/
def reqLogo : Request :=
  { Method := methodGet, RequestURI := str "/logo.png",
    URL := { Path := str "/logo.png", RawQuery := [] } }

/-- Request GET /api/item?id=goat (an API route). -/
def reqApiItem : Request :=
  { Method := methodGet, RequestURI := str "/api/item?id=goat",
    URL := { Path := str "/api/item", RawQuery := str "id=goat" } }

/-- Request GET /api/missing (an API route with no handler). -/
def reqApiMissing : Request :=
  { Method := methodGet, RequestURI := str "/api/missing",
    URL := { Path := str "/api/missing", RawQuery := [] } }

/-- A trivial serializer standing in for `json.Marshal`. -/
def encNull : Bundle → Str := fun _ => []

/-- Shell parts for a small document. -/
def partsEx : Str × Str := buildParts (str "<html><body>x</body></html>")

/-- The inline-at-spawn interleaving for two-segment requests: both reads of
each iteration observe the value current at its spawn, the final
iteration's insert observes the request-target write, and inserts are
serialised in iteration order. -/
def sched2 : Sched :=
  { look := fun i => i, ins := fun i => if i = 1 then 2 else i, perm := [0, 1] }

/-- A delayed interleaving for two-segment requests: the first iteration's
goroutine is descheduled until after the main loop has written the second
prefix, so both of its reads observe that later value. -/
def schedDelay : Sched :=
  { look := fun _ => 1, ins := fun i => if i = 0 then 1 else 2, perm := [0, 1] }

/-! ### Claim theorems, witnesses and counterexamples -/


/-- C2 (amended): the decomposition yields exactly one prefix per
slash-delimited segment of the query-stripped path, each prefix obtained
from the previous one by appending one segment under the join rule, and —
provided the path starts with '/' and has no empty segment after the first
(also for the bare root path) — the last prefix equals the path itself.
For paths with empty interior segments (e.g. "/a//b") the last prefix may
differ from the path. -/
theorem c2_prefix_count_and_last (uri : Str) :
    (prefixList (basePathOf uri)).length = (splitSlash (basePathOf uri)).length ∧
    List.Chain' (fun a b => ∃ s ∈ splitSlash (basePathOf uri), b = prefixStep a s)
      (prefixList (basePathOf uri)) ∧
    ((niceSegs (splitSlash (basePathOf uri)) = true ∨ basePathOf uri = str "/") →
      (prefixList (basePathOf uri)).getLast? = some (basePathOf uri)) := by
  refine ⟨prefixesFrom_length _ [], prefixesFrom_chain _ [], ?_⟩
  rintro (hn | hroot)
  · exact prefixList_getLast _ hn
  · rw [hroot]
    decide

/-- Witness for C2: request target "/item?id=goat". -/
theorem c2_prefix_count_and_last_witness :
    (prefixList (basePathOf (str "/item?id=goat"))).length = 2 ∧
    (prefixList (basePathOf (str "/item?id=goat"))).getLast? =
      some (basePathOf (str "/item?id=goat")) :=
  ⟨by rw [(c2_prefix_count_and_last (str "/item?id=goat")).1]; decide,
   (c2_prefix_count_and_last (str "/item?id=goat")).2.2 (Or.inl (by decide))⟩

/-- Counterexample to C2 as stated: for the path "/a//b" the decomposition's
last prefix is "/a/b", which differs from the full path. -/
theorem c2_counterexample :
    (prefixList (basePathOf (str "/a//b"))).getLast? = some (str "/a/b") ∧
    str "/a/b" ≠ str "/a//b" := by
  decide





/-- C7 (amended): the marker is inserted immediately before the LAST
case-insensitive occurrence of the close-of-body anchor in the shell text
(the source uses `strings.LastIndex` over the lowered text), and appended to
the end when no anchor occurs; in each case the produced HTML is exactly
head ++ marker ++ tail for that split. -/
theorem c7_marker_at_last_anchor (shell marker : Str) :
    (lastIndexOf (lowerStr shell) bodyCloseTag = none →
      buildHtml shell marker = shell ++ marker ∧
      ∀ j, bodyCloseTag.isPrefixOf ((lowerStr shell).drop j) = false) ∧
    (∀ i, lastIndexOf (lowerStr shell) bodyCloseTag = some i →
      i ≤ shell.length ∧
      buildHtml shell marker = shell.take i ++ marker ++ shell.drop i ∧
      bodyCloseTag.isPrefixOf ((lowerStr shell).drop i) = true ∧
      ∀ j, i < j → bodyCloseTag.isPrefixOf ((lowerStr shell).drop j) = false) := by
  have hspec := lastIndexOf_spec (lowerStr shell) bodyCloseTag (by decide)
  constructor
  · intro hn
    refine ⟨?_, hspec.1 hn⟩
    simp [buildHtml, buildParts, injectMarker, hn]
  · intro i hi
    refine ⟨?_, ?_, (hspec.2 i hi).2.1, (hspec.2 i hi).2.2⟩
    · have hb := (hspec.2 i hi).1
      simpa [lowerStr] using hb
    · simp [buildHtml, buildParts, injectMarker, hi]

/-- Witness for C7: shell "ab</BODY>cd" splits at index 2 — the anchor is
matched case-insensitively, begins there in the lowered text, never occurs
later, and the marker is spliced into the original (unlowered) text. -/
theorem c7_marker_at_last_anchor_witness :
    2 ≤ (str "ab</BODY>cd").length ∧
    buildHtml (str "ab</BODY>cd") (str "MM") =
      (str "ab</BODY>cd").take 2 ++ str "MM" ++ (str "ab</BODY>cd").drop 2 ∧
    bodyCloseTag.isPrefixOf ((lowerStr (str "ab</BODY>cd")).drop 2) = true :=
  ⟨((c7_marker_at_last_anchor (str "ab</BODY>cd") (str "MM")).2 2 (by decide)).1,
   ((c7_marker_at_last_anchor (str "ab</BODY>cd") (str "MM")).2 2 (by decide)).2.1,
   ((c7_marker_at_last_anchor (str "ab</BODY>cd") (str "MM")).2 2 (by decide)).2.2.1⟩

/-- Counterexample to C7 as stated: with two anchors in the shell the code
splices before the last one, not before the first case-insensitive
occurrence demanded by the claim. -/
theorem c7_counterexample :
    buildHtml (str "A</body>B</body>") (str "[M]") ≠
      buildHtmlFirstSpec (str "A</body>B</body>") (str "[M]") ∧
    buildHtml (str "A</body>B</body>") (str "[M]") =
      str "A</body>B" ++ str "[M]" ++ str "</body>" ∧
    buildHtmlFirstSpec (str "A</body>B</body>") (str "[M]") =
      str "A" ++ str "[M]" ++ str "</body>B</body>" := by
  decide


/-- C9: an API request whose method and prefix-stripped path (defaulting to
"/" when stripping leaves nothing) match a registered handler is answered
with exactly the bytes that handler wrote to its capturing responder, with
no HTML wrapping and no headers added by the middleware. -/
theorem c9_api_body_verbatim (routes : Routes) (apiBase : Str) (parts : Str × Str)
    (stag : Bool) (enc : Bundle → Str) (r : Request) (h : Handler)
    (hpre : apiBase.isPrefixOf r.URL.Path = true)
    (hroute : routes r.Method (apiLookupPath apiBase r.URL.Path) = some h) :
    serve routes apiBase parts stag enc r =
      ServeOutcome.resp
        { headers := [], statusCode := 200, body := (h NewInterceptWriter r).Body } := by
  simp [serve, hpre, hroute]

/-- Witness for C9: GET /api/item?id=goat with API namespace /api reaches
the handler registered at GET /item and returns its body verbatim. -/
theorem c9_api_body_verbatim_witness :
    serve routesRootItem (str "/api") partsEx false encNull reqApiItem =
      ServeOutcome.resp
        { headers := [], statusCode := 200,
          body := (hItem NewInterceptWriter reqApiItem).Body } :=
  c9_api_body_verbatim routesRootItem (str "/api") partsEx false encNull reqApiItem
    hItem (by decide) (by rfl)

/-- C10: an API request with no registered handler for its method and
stripped path gets an empty body and the response layer's default status
200; no 404 or error output is produced by the middleware. -/
theorem c10_api_no_route (routes : Routes) (apiBase : Str) (parts : Str × Str)
    (stag : Bool) (enc : Bundle → Str) (r : Request)
    (hpre : apiBase.isPrefixOf r.URL.Path = true)
    (hroute : routes r.Method (apiLookupPath apiBase r.URL.Path) = none) :
    serve routes apiBase parts stag enc r =
      ServeOutcome.resp { headers := [], statusCode := 200, body := [] } := by
  simp [serve, hpre, hroute]

/-- Witness for C10: GET /api/missing against the registry with only / and
/item handlers. -/
theorem c10_api_no_route_witness :
    serve routesRootItem (str "/api") partsEx false encNull reqApiMissing =
      ServeOutcome.resp { headers := [], statusCode := 200, body := [] } :=
  c10_api_no_route routesRootItem (str "/api") partsEx false encNull reqApiMissing
    (by decide) (by rfl)

/-- C1 (code bug): the spec requires an entry captured from every matched
ancestor prefix, but the goroutines of main.go lines 199-230 capture the
shared `currentPathReq` by reference, so in the exhibited legal
interleaving of the race — handlers at GET / and GET /item, request
GET /item, the first iteration's goroutine descheduled until after the
main loop wrote "/item" — the handler registered at the matched ancestor
prefix "/" is never invoked, the bundle has no entry for it, and the /item
handler runs twice. -/
theorem c1_race_drops_ancestor_capture :
    ValidSched routesRootItem reqItem schedDelay = true ∧
    routesRootItem reqItem.Method (str "/") = some hRoot ∧
    str "/" ∈ prefixList (basePathOf reqItem.RequestURI) ∧
    (racyBundle routesRootItem reqItem schedDelay) (str "/") = none ∧
    (racyCalls routesRootItem reqItem schedDelay).countP
      (fun x => decide (x.2.1 = str "/")) = 0 ∧
    (racyCalls routesRootItem reqItem schedDelay).countP
      (fun x => decide (x.2.1 = str "/item")) = 2 :=
  ⟨by decide, by rfl, by decide, by decide, by decide, by decide⟩

/-- C3 (code bug): the spec requires at most one invocation per
(method, prefix) and exactly one dispatch for a root request, but
`strings.Split("/", "/")` has two elements, so a request for the root path
produces the prefix "/" twice and — in every legal interleaving of the
race, since the shared variable only ever holds "/" on this input — a
handler registered at GET / is invoked exactly twice. -/
theorem c3_root_double_dispatch (sch : Sched)
    (hv : ValidSched routesRootItem reqRoot sch = true) :
    (prefixList (basePathOf reqRoot.RequestURI)).length = 2 ∧
    (racyCalls routesRootItem reqRoot sch).countP
      (fun x => decide (x.2.1 = str "/")) = 2 := by
  refine ⟨by decide, ?_⟩
  have hlk : ∀ i, i < racyN reqRoot →
      lookKey routesRootItem reqRoot sch i = str "/" := by
    intro i hi
    have hbnd := validSched_bounds routesRootItem reqRoot sch hv i hi
    have hlen : (racyVals routesRootItem reqRoot).length = 3 := by decide
    have h3 : sch.look i < 3 := by
      have h1 := hbnd.2.1
      have h2 := hbnd.2.2
      omega
    unfold lookKey
    rw [show racyVals routesRootItem reqRoot = [str "/", str "/", str "/"] from by decide]
    set j := sch.look i with hj
    interval_cases j <;> rfl
  have hcalls : racyCalls routesRootItem reqRoot sch =
      [(0, str "/", clearQuery reqRoot), (1, str "/", reqRoot)] := by
    unfold racyCalls
    rw [show List.range (racyN reqRoot) = [0, 1] from by decide]
    simp only [List.filterMap_cons, List.filterMap_nil]
    rw [hlk 0 (by decide), hlk 1 (by decide)]
    decide
  rw [hcalls]
  decide

/-- Witness for C3's theorem: the inline-at-spawn interleaving is a valid
schedule and exhibits the double dispatch. -/
theorem c3_root_double_dispatch_witness :
    (prefixList (basePathOf reqRoot.RequestURI)).length = 2 ∧
    (racyCalls routesRootItem reqRoot sched2).countP
      (fun x => decide (x.2.1 = str "/")) = 2 :=
  c3_root_double_dispatch sched2 (by decide)

/-- C4 (amended): in every valid interleaving of the racy dispatch, every
Preload Bundle key is either one of the generated ancestor prefixes of the
query-stripped path (possibly the bare full path itself, as for root
requests) or the full original request-target — the shared variable never
holds anything else; and the final iteration's insertion, whenever its
lookup matches, is keyed by the full request-target and captures the
invocation on the original request. -/
theorem c4_bundle_keys (routes : Routes) (r : Request) (sch : Sched)
    (hv : ValidSched routes r sch = true) :
    (∀ k, ((racyBundle routes r sch) k).isSome = true →
      k ∈ prefixList (basePathOf r.RequestURI) ∨ k = r.RequestURI) ∧
    (terminalFound routes r = true →
      ∃ h, routes r.Method
          ((prefixList (basePathOf r.RequestURI)).getD (racyN r - 1) []) = some h ∧
        racyInsert routes r sch (racyN r - 1) =
          some (r.RequestURI, h NewInterceptWriter r)) := by
  have hperm := validSched_perm routes r sch hv
  constructor
  · intro k hk
    by_contra hcon
    push_neg at hcon
    obtain ⟨hnotp, hnoturi⟩ := hcon
    unfold racyBundle at hk
    rw [foldl_mapUpdate_not_mem] at hk
    · simp at hk
    · intro hbad
      obtain ⟨x, hx, hx1⟩ := List.mem_map.mp hbad
      obtain ⟨i, hiperm, hins⟩ := List.mem_filterMap.mp hx
      obtain ⟨h, hfound, hxeq⟩ := Option.map_eq_some'.mp hins
      have hi : i < racyN r := List.mem_range.mp (hperm.mem_iff.mp hiperm)
      have hbnd := validSched_bounds routes r sch hv i hi
      have hkey : k = insKey routes r sch i := by rw [← hx1, ← hxeq]
      have hmem : insKey routes r sch i ∈ racyVals routes r := by
        unfold insKey
        exact getD_mem_of_lt _ _ _ hbnd.2.2
      rw [← hkey] at hmem
      unfold racyVals at hmem
      rcases List.mem_append.mp hmem with h1 | h2
      · exact hnotp h1
      · by_cases ht : terminalFound routes r = true
        · rw [if_pos ht] at h2
          simp at h2
          exact hnoturi h2
        · rw [if_neg ht] at h2
          simp at h2
  · intro ht
    have ht2 := ht
    unfold terminalFound at ht2
    obtain ⟨h, hh⟩ := Option.isSome_iff_exists.mp ht2
    refine ⟨h, hh, ?_⟩
    have hlen : (prefixList (basePathOf r.RequestURI)).length = racyN r :=
      prefixesFrom_length _ []
    have hpos : 0 < racyN r := by
      unfold racyN
      exact List.length_pos.mpr (splitSlash_ne_nil _)
    have hlookeq : lookKey routes r sch (racyN r - 1)
        = (prefixList (basePathOf r.RequestURI)).getD (racyN r - 1) [] := by
      unfold lookKey
      rw [validSched_lookLast routes r sch hv]
      unfold racyVals
      apply getD_append_left
      omega
    have hinseq : insKey routes r sch (racyN r - 1) = r.RequestURI := by
      unfold insKey
      rw [validSched_insLast routes r sch hv ht]
      unfold racyVals
      rw [if_pos ht]
      rw [show (prefixList (basePathOf r.RequestURI) ++ [r.RequestURI]).length - 1
          = (prefixList (basePathOf r.RequestURI)).length from by simp]
      exact getD_append_length _ _ _
    have hreq : racyReq r (racyN r - 1) = r := by
      unfold racyReq
      simp
    unfold racyInsert
    rw [hlookeq, hh, Option.map_some', hinseq, hreq]

/-- Witness for C4: in the inline-at-spawn interleaving for GET /item, the
bundle key "/" is one of the generated ancestor prefixes, and the terminal
insertion is keyed by the request-target capturing the original request. -/
theorem c4_bundle_keys_witness :
    (str "/" ∈ prefixList (basePathOf reqItem.RequestURI) ∨
      str "/" = reqItem.RequestURI) ∧
    (∃ h, routesRootItem reqItem.Method
        ((prefixList (basePathOf reqItem.RequestURI)).getD (racyN reqItem - 1) []) = some h ∧
      racyInsert routesRootItem reqItem sched2 (racyN reqItem - 1) =
        some (reqItem.RequestURI, h NewInterceptWriter reqItem)) :=
  ⟨(c4_bundle_keys routesRootItem reqItem sched2 (by decide)).1 (str "/") (by decide),
   (c4_bundle_keys routesRootItem reqItem sched2 (by decide)).2 (by decide)⟩

/-- Counterexample to C4 as stated: for request GET /?q=1 with a handler at
GET /, already in the valid inline-at-spawn interleaving the bundle holds
an intermediate entry keyed "/", which is the bare full path (not a strict
ancestor) and not the request-target, even though a query string is
present. -/
theorem c4_counterexample :
    ValidSched routesRootItem reqRootQ sched2 = true ∧
    ((racyBundle routesRootItem reqRootQ sched2) (str "/")).isSome = true ∧
    ¬(str "/" = reqRootQ.RequestURI ∨
      (str "/" ∈ prefixList (basePathOf reqRootQ.RequestURI) ∧
        str "/" ≠ basePathOf reqRootQ.RequestURI)) := by
  refine ⟨by decide, by decide, by decide⟩

/-- C5: for whatever Preload Bundle an execution of the dispatch race
produced, headers are copied onto the real outgoing response exactly when
that bundle holds an entry keyed by the original request-target whose
captured status is not 404; the copied headers are the promotion of the
captured ones with the sequence of values per header name preserved;
otherwise the middleware adds no headers at all.  The promotion stage
(main.go lines 248-256) runs on the main goroutine after the join, so
quantifying over the bundle covers every schedule. -/
theorem c5_header_promotion (b : Bundle) (parts : Str × Str) (enc : Bundle → Str)
    (uri : Str) (iw : InterceptWriter) :
    (b uri = some iw → iw.StatusCode ≠ 404 →
      (bundleResponse b parts enc uri).headers = promote iw.Headers ∧
      ∀ k, headerValues ((bundleResponse b parts enc uri).headers) k =
        headerValues iw.Headers k) ∧
    (b uri = some iw → iw.StatusCode = 404 →
      (bundleResponse b parts enc uri).headers = []) ∧
    (b uri = none → (bundleResponse b parts enc uri).headers = []) := by
  refine ⟨?_, ?_, ?_⟩
  · intro h1 h2
    have hh : (bundleResponse b parts enc uri).headers = promote iw.Headers := by
      simp [bundleResponse, h1, h2]
    exact ⟨hh, fun k => by rw [hh]; exact promote_values iw.Headers k⟩
  · intro h1 h2
    simp [bundleResponse, h1, h2]
  · intro h1
    simp [bundleResponse, h1]

/-- Witness for C5: the bundle of an actual interleaving for GET
/item?id=goat against a handler that adds two values to header X-A; the
response carries exactly the promoted header with both values in order. -/
theorem c5_header_promotion_witness :
    (bundleResponse (racyBundle routesHdr reqItemQ sched2) partsEx encNull
        reqItemQ.RequestURI).headers =
      promote (hHdr NewInterceptWriter reqItemQ).Headers ∧
    headerValues ((bundleResponse (racyBundle routesHdr reqItemQ sched2) partsEx encNull
        reqItemQ.RequestURI).headers) (str "X-A") =
      headerValues (hHdr NewInterceptWriter reqItemQ).Headers (str "X-A") :=
  ⟨((c5_header_promotion (racyBundle routesHdr reqItemQ sched2) partsEx encNull
      reqItemQ.RequestURI (hHdr NewInterceptWriter reqItemQ)).1 (by decide) (by decide)).1,
   ((c5_header_promotion (racyBundle routesHdr reqItemQ sched2) partsEx encNull
      reqItemQ.RequestURI (hHdr NewInterceptWriter reqItemQ)).1 (by decide) (by decide)).2
     (str "X-A")⟩

/-- C6 (amended): in every interleaving, which request a handler invocation
receives is decided by the iteration index alone (main.go line 210 tests
the per-iteration loop variable, not the racy shared string): the
invocation performed at the final decomposition index receives the original
request value unmodified, and every earlier invocation receives the shallow
copy with the query string cleared and the method, request-target and URL
path unchanged; the original request value itself is never modified. -/
theorem c6_request_frame (routes : Routes) (r : Request) (sch : Sched)
    (x : Nat × Str × Request) (hx : x ∈ racyCalls routes r sch) :
    (x.1 = racyN r - 1 → x.2.2 = r) ∧
    (x.1 ≠ racyN r - 1 →
      x.2.2 = clearQuery r ∧ x.2.2.URL.RawQuery = [] ∧ x.2.2.Method = r.Method ∧
      x.2.2.RequestURI = r.RequestURI ∧ x.2.2.URL.Path = r.URL.Path) := by
  unfold racyCalls at hx
  obtain ⟨i, hi, heq⟩ := List.mem_filterMap.mp hx
  obtain ⟨h, hfound, hxeq⟩ := Option.map_eq_some'.mp heq
  subst hxeq
  constructor
  · intro hlast
    show racyReq r i = r
    unfold racyReq
    rw [if_pos hlast]
  · intro hne
    have hcq : racyReq r i = clearQuery r := by
      unfold racyReq
      rw [if_neg hne]
    refine ⟨hcq, ?_, ?_, ?_, ?_⟩ <;>
      show _ = _ <;> rw [show (i, lookKey routes r sch i, racyReq r i).2.2
        = clearQuery r from hcq] <;> simp [clearQuery]

/-- Witness for C6: the ancestor invocation at index 0 for GET /item?id=goat
in the inline-at-spawn interleaving receives the query-cleared copy with
method, request-target and path intact. -/
theorem c6_request_frame_witness :
    (0, str "/", clearQuery reqItemQ).2.2 = clearQuery reqItemQ ∧
    (0, str "/", clearQuery reqItemQ).2.2.URL.RawQuery = [] ∧
    (0, str "/", clearQuery reqItemQ).2.2.Method = reqItemQ.Method ∧
    (0, str "/", clearQuery reqItemQ).2.2.RequestURI = reqItemQ.RequestURI ∧
    (0, str "/", clearQuery reqItemQ).2.2.URL.Path = reqItemQ.URL.Path :=
  (c6_request_frame routesRootItem reqItemQ sched2 (0, str "/", clearQuery reqItemQ)
    (by decide)).2 (by decide)

/-- Counterexample to C6 as stated: for request GET /?q=1 with a handler at
GET /, already in the valid inline-at-spawn interleaving there is an
invocation whose matched prefix equals the full (query-stripped) path, yet
the handler receives the query-cleared copy, not the original request. -/
theorem c6_counterexample :
    ValidSched routesRootItem reqRootQ sched2 = true ∧
    (0, str "/", clearQuery reqRootQ) ∈ racyCalls routesRootItem reqRootQ sched2 ∧
    str "/" = basePathOf reqRootQ.RequestURI ∧
    clearQuery reqRootQ ≠ reqRootQ := by
  refine ⟨by decide, by decide, by decide, by decide⟩

/-- C8 (amended): a request outside the API namespace is served by the
preload pipeline exactly when its path passes the default-index test and
staggered testing mode is off — in which case, for every interleaving of
the dispatch race, the response is the shell with that interleaving's
bundle injected and its headers promoted; with the mode on, the shell is
returned with no marker; requests failing the default-index test are handed
to the static-file/proxy fallback instead of the pipeline. -/
theorem c8_document_route_pipeline (routes : Routes) (apiBase : Str)
    (parts : Str × Str) (enc : Bundle → Str) (sch : Sched) (r : Request)
    (hnapi : apiBase.isPrefixOf r.URL.Path = false) :
    (requestIsDefaultIndex r.URL.Path = true →
      serveR routes apiBase parts false enc sch r =
        ServeOutcome.resp
          (bundleResponse (racyBundle routes r sch) parts enc r.RequestURI)) ∧
    (requestIsDefaultIndex r.URL.Path = true →
      serveR routes apiBase parts true enc sch r =
        ServeOutcome.resp
          { headers := [], statusCode := 200, body := parts.1 ++ parts.2 }) ∧
    (∀ stag, requestIsDefaultIndex r.URL.Path = false →
      serveR routes apiBase parts stag enc sch r = ServeOutcome.staticServe) := by
  refine ⟨fun hidx => ?_, fun hidx => ?_, fun stag hidx => ?_⟩ <;>
    simp [serveR, hnapi, hidx]

/-- Witness for C8: GET /item is a document route served by the pipeline in
the inline-at-spawn interleaving. -/
theorem c8_document_route_pipeline_witness :
    serveR routesRootItem (str "/api") partsEx false encNull sched2 reqItem =
      ServeOutcome.resp (bundleResponse (racyBundle routesRootItem reqItem sched2)
        partsEx encNull reqItem.RequestURI) :=
  (c8_document_route_pipeline routesRootItem (str "/api") partsEx encNull sched2 reqItem
    (by decide)).1 (by decide)

/-- Counterexample to C8 as stated: GET /logo.png does not start with the
API namespace /api, yet it is delegated to the static fallback and its
response is not the pipeline output. -/
theorem c8_counterexample :
    (str "/api").isPrefixOf reqLogo.URL.Path = false ∧
    serveR emptyRoutes (str "/api") partsEx false encNull sched2 reqLogo =
      ServeOutcome.staticServe ∧
    serveR emptyRoutes (str "/api") partsEx false encNull sched2 reqLogo ≠
      ServeOutcome.resp (bundleResponse (racyBundle emptyRoutes reqLogo sched2)
        partsEx encNull reqLogo.RequestURI) := by
  refine ⟨by decide, by decide, ?_⟩
  rw [show serveR emptyRoutes (str "/api") partsEx false encNull sched2 reqLogo
      = ServeOutcome.staticServe from by decide]
  intro h
  exact ServeOutcome.noConfusion h
